import Mathlib

/-!
Verification of the nobcpp build orchestrator (shallow embedding).

The definitions below are translated from the C++ source (`nobcpp`), a small
self-contained build tool.  The embedding models:

* the `CompileCommand` record and the append-only `CompileCommands` plan
  (`add_cmd`, `add_edge`);
* the `Unit` build tree and the planner `Unit::compile_impl`
  (staleness decision, compile/link argv construction, edge wiring);
* `Unit::clean_impl` / `Unit::clean`;
* the command-line marker handling of `Unit::parse` and the self-rebuild
  bootstrap `rebuild_self`;
* the compilation-database writer `CompileCommands::write`;
* an interleaving model of the parallel scheduler `CompileCommands::execute`
  (seed phase, dispatch, completion propagation).

The filesystem is abstracted by a structure `FS` providing existence and
modification times; directory creation and actual process launches are side
effects outside the staleness/planning logic and are represented by the
`Launch` datatype where observable.
-/

namespace Nobcpp

/-- Abstract filesystem: existence and last-write-time of a path.
`Unit::compile_impl` only consults these two observations
(`std::filesystem::exists` and `std::filesystem::last_write_time`). -/
structure FS where
  fexists : String → Bool
  mtime : String → Int

/-- `enum class TargetType` from the source. -/
inductive TargetType where
  | EXECUTABLE
  | STATIC_LIB
  | DYNAMIC_LIB
  | OBJECT
  | NONE
deriving DecidableEq, Repr

/-- `class CompileCommand`: one external invocation record. -/
structure CompileCommand where
  command : String
  args : List String
  enabled : Bool
  compile : Bool
deriving DecidableEq, Repr

instance : Inhabited CompileCommand := ⟨⟨"", [], false, false⟩⟩

/-- `class CompileCommands`: the plan, an indexed node list with out-edge
lists and in-degree counters. -/
structure CompileCommands where
  cmds : List CompileCommand
  outs : List (List Nat)
  in_degree : List Nat
deriving DecidableEq, Repr

/-- `CompileCommands::add_cmd`: append a node, return its zero-based index. -/
def CompileCommands.add_cmd (cc : CompileCommands) (c : CompileCommand) :
    Nat × CompileCommands :=
  (cc.cmds.length, ⟨cc.cmds ++ [c], cc.outs ++ [[]], cc.in_degree ++ [0]⟩)

/-- `CompileCommands::add_edge`: bounds-check, then append `dst` to
`outs[src]` and bump `in_degree[dst]`. -/
def CompileCommands.add_edge (cc : CompileCommands) (src dst : Nat) :
    Bool × CompileCommands :=
  if src < cc.cmds.length ∧ dst < cc.cmds.length then
    (true, ⟨cc.cmds,
            cc.outs.set src (cc.outs.getD src [] ++ [dst]),
            cc.in_degree.set dst (cc.in_degree.getD dst 0 + 1)⟩)
  else
    (false, cc)

/-- The empty plan (`CompileCommands` default construction). -/
def emptyPlan : CompileCommands := ⟨[], [], []⟩

/-- Basic shape invariant of a plan: the three arrays run in parallel. -/
def WFP (cc : CompileCommands) : Prop :=
  cc.outs.length = cc.cmds.length ∧ cc.in_degree.length = cc.cmds.length

instance : DecidablePred WFP := fun cc => by unfold WFP; infer_instance

/-- Characters of a path after the last `/`
(`std::filesystem::path::filename`). -/
def fileNameChars (p : List Char) : List Char :=
  p.foldl (fun acc c => if c = '/' then [] else acc ++ [c]) []

/-- Extension of a filename, dot included
(`std::filesystem::path::extension`): the suffix starting at the last dot,
unless the filename is `.` or `..` or the dot is its first character. -/
def extChars (f : List Char) : List Char :=
  if f = ['.'] ∨ f = ['.', '.'] then []
  else
    match f.reverse.findIdx? (· = '.') with
    | none => []
    | some k => if k + 1 = f.length then [] else '.' :: (f.reverse.take k).reverse

/-- Directory part of a path (`std::filesystem::path::parent_path`):
everything before the last `/`. -/
def parentChars (p : List Char) : List Char :=
  match p.reverse.findIdx? (· = '/') with
  | none => []
  | some k =>
    let kept := (p.reverse.drop (k + 1)).reverse
    if kept = [] then ['/'] else kept

/-- Filename without its extension (`std::filesystem::path::stem`). -/
def stemChars (p : List Char) : List Char :=
  let f := fileNameChars p
  f.take (f.length - (extChars f).length)

/-- Target kind selected from the target path's extension, as in the `Unit`
constructor: `.a` → STATIC_LIB, `.so` → DYNAMIC_LIB, `.o` → OBJECT,
`.exe` or empty → EXECUTABLE, anything else → NONE. -/
def targetTypeOfPath : Option String → TargetType
  | Option.none => .NONE
  | Option.some t =>
    let ext := extChars (fileNameChars t.data)
    if ext = ['.', 'a'] then .STATIC_LIB
    else if ext = ['.', 's', 'o'] then .DYNAMIC_LIB
    else if ext = ['.', 'o'] then .OBJECT
    else if ext = ['.', 'e', 'x', 'e'] ∨ ext = [] then .EXECUTABLE
    else .NONE

mutual
/-- `class Unit`: a node of the user-described build tree.  `deps` owns the
children; `compiler` defaults to `"c++"` in the constructor. -/
inductive Unit where
  | mk (deps : UnitList) (source_path : Option String) (target_path : Option String)
       (compile_flags : List String) (link_flags : List String) (compiler : String)
deriving DecidableEq

/-- The ordered children of a `Unit` (the `std::vector<std::unique_ptr<Unit>>`
field), as its own list type so that recursion over the tree is structural. -/
inductive UnitList where
  | nil
  | cons (u : Unit) (rest : UnitList)
deriving DecidableEq
end

def Unit.deps : Unit → UnitList
  | .mk d _ _ _ _ _ => d

def Unit.source_path : Unit → Option String
  | .mk _ s _ _ _ _ => s

def Unit.target_path : Unit → Option String
  | .mk _ _ t _ _ _ => t

def Unit.compile_flags : Unit → List String
  | .mk _ _ _ cf _ _ => cf

def Unit.link_flags : Unit → List String
  | .mk _ _ _ _ lf _ => lf

def Unit.compiler : Unit → String
  | .mk _ _ _ _ _ c => c

/-- The `target_type` field as computed by the `Unit` constructor. -/
def Unit.target_type (u : Unit) : TargetType :=
  targetTypeOfPath u.target_path

/-- The reassignment of `target_type_parent` performed at the top of
`Unit::compile_impl`: an EXECUTABLE / DYNAMIC_LIB / STATIC_LIB node replaces
the inherited kind with its own. -/
def effKind (u : Unit) (parent : TargetType) : TargetType :=
  if u.target_type = .EXECUTABLE ∨ u.target_type = .DYNAMIC_LIB ∨
     u.target_type = .STATIC_LIB then u.target_type else parent

/-- `dep_target_objects` collected by the dependency loop of
`Unit::compile_impl`: the target of every child that has one. -/
def UnitList.depTargets : UnitList → List String
  | .nil => []
  | .cons c rest =>
    (match c.target_path with
     | Option.some t => [t]
     | Option.none => []) ++ rest.depTargets

/-- `header_deps` collected by the dependency loop of `Unit::compile_impl`:
the source of every child that has no target. -/
def UnitList.headerDeps : UnitList → List String
  | .nil => []
  | .cons c rest =>
    (match c.target_path, c.source_path with
     | Option.none, Option.some s => [s]
     | _, _ => []) ++ rest.headerDeps

/-- The edge-wiring loop at the end of the link branch of
`Unit::compile_impl`: for each direct child whose `node_id` is set, add an
edge from it to the link node. -/
def wireEdges (ids : List (Option Nat)) (link_node : Nat)
    (cc : CompileCommands) : CompileCommands :=
  ids.foldl
    (fun acc oid =>
      match oid with
      | Option.some i => (acc.add_edge i link_node).2
      | Option.none => acc) cc

mutual
/-- `Unit::compile_impl`, state-passing translation.  Returns the extended
plan, the node's rebuild flag, and the node id stashed in the mutable
`node_id` field (`none` when the unit has no target).  The
`create_directories` call is a side effect not reflected in the plan. -/
def Unit.compile_impl (fs : FS) (full_rebuild : Bool) :
    Unit → CompileCommands → TargetType → List String →
    CompileCommands × Bool × Option Nat
  | .mk deps sp tp cf lf comp, cc, ttp0, inherited =>
    let local_flags := inherited ++ cf
    let kind := targetTypeOfPath tp
    let ttp := if kind = .EXECUTABLE ∨ kind = .DYNAMIC_LIB ∨ kind = .STATIC_LIB
               then kind else ttp0
    let rec1 := UnitList.compile_list fs full_rebuild deps cc ttp local_flags
    let cc1 := rec1.1
    let child_ids := rec1.2.1
    let parent_rebuild := rec1.2.2
    match tp with
    | Option.none => (cc1, false, Option.none)
    | Option.some target =>
      let rebuild0 := parent_rebuild || !fs.fexists target
      let rebuild1 := (deps.headerDeps).foldl
        (fun r h => r || decide (fs.mtime h > fs.mtime target)) rebuild0
      match sp with
      | Option.some source =>
        let rebuild2 := rebuild1 || decide (fs.mtime source > fs.mtime target)
        let args := (if ttp = .DYNAMIC_LIB then ["-fPIC"] else []) ++
          local_flags ++ ["-MMD", "-c", "-o", target, source]
        let r := cc1.add_cmd ⟨comp, args, rebuild2 || full_rebuild, true⟩
        (r.2, rebuild2, Option.some r.1)
      | Option.none =>
        let compiler := if kind = .STATIC_LIB then "ar" else comp
        let args0 : List String :=
          if kind = .DYNAMIC_LIB then ["-shared"]
          else if kind = .STATIC_LIB then ["rcs"] else []
        let args1 := args0 ++
          (if kind = .DYNAMIC_LIB ∨ kind = .EXECUTABLE then lf else [])
        let args2 := args1 ++ ["-o", target]
        let dto := deps.depTargets
        let rebuild2 := dto.foldl
          (fun r t2 => r || decide (fs.mtime t2 > fs.mtime target)) rebuild1
        let args := args2 ++ dto
        let r := cc1.add_cmd ⟨compiler, args, rebuild2 || full_rebuild, false⟩
        let link_node := r.1
        let cc2 := wireEdges child_ids link_node r.2
        (cc2, rebuild2, Option.some link_node)

/-- The dependency loop of `Unit::compile_impl`: recurse into each child in
order, collecting the plan, the children's `node_id`s (in child order) and
the OR of their rebuild flags. -/
def UnitList.compile_list (fs : FS) (full_rebuild : Bool) :
    UnitList → CompileCommands → TargetType → List String →
    CompileCommands × List (Option Nat) × Bool
  | .nil, cc, _, _ => (cc, [], false)
  | .cons c rest, cc, ttp, inh =>
    let r1 := Unit.compile_impl fs full_rebuild c cc ttp inh
    let r2 := UnitList.compile_list fs full_rebuild rest r1.1 ttp inh
    (r2.1, r1.2.2 :: r2.2.1, r1.2.1 || r2.2.2)
end

/-- `Unit::compile`: run the planner from an empty plan, seeding the ancestor
kind with the root's own `target_type` and the inherited flags with `[]`. -/
def Unit.compile (fs : FS) (full_rebuild : Bool) (u : Unit) : CompileCommands :=
  (Unit.compile_impl fs full_rebuild u emptyPlan u.target_type []).1

/-- The `.d` sibling file computed by `Unit::clean_impl` for OBJECT targets:
`parent_path + "/" + stem + ".d"`. -/
def dFileOf (target : String) : String :=
  ⟨parentChars target.data⟩ ++ "/" ++ (⟨stemChars target.data⟩ : String) ++ ".d"

mutual
/-- `Unit::clean_impl`: post-order; for every unit with a target append an
`rm <target>` command enabled iff the target exists, and for OBJECT targets
an `rm <dfile>` command enabled iff the `.d` file exists. -/
def Unit.clean_impl (fs : FS) : Unit → CompileCommands → CompileCommands
  | .mk deps _ tp _ _ _, cc =>
    let cc1 := UnitList.clean_list fs deps cc
    match tp with
    | Option.none => cc1
    | Option.some target =>
      let cc2 := (cc1.add_cmd ⟨"rm", [target], fs.fexists target, false⟩).2
      if targetTypeOfPath (Option.some target) = .OBJECT then
        let dfile := dFileOf target
        (cc2.add_cmd ⟨"rm", [dfile], fs.fexists dfile, false⟩).2
      else cc2

/-- The dependency loop of `Unit::clean_impl`. -/
def UnitList.clean_list (fs : FS) : UnitList → CompileCommands → CompileCommands
  | .nil, cc => cc
  | .cons c rest, cc => UnitList.clean_list fs rest (Unit.clean_impl fs c cc)
end

/-- `Unit::clean`: either the post-order per-target removals, or a single
`rm -r build` enabled iff the `build` directory exists. -/
def Unit.clean (fs : FS) (u : Unit) (remove_dir : Bool) : CompileCommands :=
  if !remove_dir then
    Unit.clean_impl fs u emptyPlan
  else
    ((emptyPlan).add_cmd ⟨"rm", ["-r", "build"], fs.fexists "build", false⟩).2

/-- `Unit::get_target` (dereferences the optional target path). -/
def Unit.get_target (u : Unit) : String :=
  u.target_path.getD ""

/-- An observable process launch: either through `run_process`
(fork/exec with an argv) or through `std::system` (a shell command line). -/
inductive Launch where
  | proc (command : String) (args : List String)
  | shell (cmdline : String)
deriving DecidableEq, Repr

/-- The process launches performed by `CompileCommand::execute`: nothing if
the command is disabled, otherwise one `run_process(command, args)` call. -/
def CompileCommand.launches (c : CompileCommand) : List Launch :=
  if c.enabled then [.proc c.command c.args] else []

/-- The process launches performed by the `"run"` sub-command lambda: it
calls `run_process(unit->get_target(), {})` and then additionally
`std::system(unit->get_target().c_str())`. -/
def run_action (u : Unit) : List Launch :=
  [.proc u.get_target [], .shell u.get_target]

/-- The scan loop of `Unit::parse` over `argv[1..]`: accumulate the kept
tokens, whether the `nob_rebuild` marker was seen (it is skipped), and
whether a `rebuild` token was seen (it is kept). -/
def parse_scan (args : List String) : List String × Bool × Bool :=
  args.foldl
    (fun st a =>
      if a = "nob_rebuild" then (st.1, true, st.2.2)
      else if a = "rebuild" then (st.1 ++ [a], st.2.1, true)
      else (st.1 ++ [a], st.2.1, st.2.2))
    ([], false, false)

/-- The command list `Unit::parse` iterates over: the scanned tokens, with
`"rebuild"` prepended when the marker was present and `"rebuild"` was not. -/
def parse_cmd_flags (args : List String) : List String :=
  let st := parse_scan args
  if st.2.1 ∧ ¬ st.2.2 then "rebuild" :: st.1 else st.1

/-- The staleness decision of `rebuild_self`: binary missing or source newer,
and otherwise (only then is the loop entered) any extra dependency missing
or newer than the binary. -/
def rebuild_self_needs (fs : FS) (src bin : String) (deps : List String) : Bool :=
  let needs := !fs.fexists bin || decide (fs.mtime src > fs.mtime bin)
  if !needs then
    deps.foldl
      (fun n d => n || (!fs.fexists d || decide (fs.mtime d > fs.mtime bin)))
      needs
  else needs

/-- The exec step of `rebuild_self`: when a recompile is needed (and after
the fixed compile command succeeds) the process image is replaced by the
binary with argv `[argv[0], "nob_rebuild", argv[1], ..., argv[argc-1]]`;
otherwise no exec happens.  Returns the exec target and its argv. -/
def rebuild_self_exec (fs : FS) (src bin prog : String) (args : List String)
    (deps : List String) : Option (String × List String) :=
  if rebuild_self_needs fs src bin deps then
    Option.some (bin, prog :: "nob_rebuild" :: args)
  else
    Option.none

/-- The spacing loop of `CompileCommand::print`: arguments separated by
single spaces (no trailing space after the last). -/
def sepConcat : List String → String
  | [] => ""
  | [a] => a
  | a :: b :: rest => a ++ " " ++ sepConcat (b :: rest)

/-- `CompileCommand::print`: the command, one space, then the
space-separated arguments. -/
def CompileCommand.print_str (c : CompileCommand) : String :=
  c.command ++ " " ++ sepConcat c.args

/-- `std::filesystem::absolute` relative to a current working directory:
already-absolute paths are returned unchanged, otherwise `cwd / path`. -/
def absolutePath (cwd p : String) : String :=
  if p.startsWith "/" then p else cwd ++ "/" ++ p

/-- `CompileCommand::get_abs_file`: the absolute path of the last argument. -/
def CompileCommand.get_abs_file (cwd : String) (c : CompileCommand) : String :=
  absolutePath cwd (c.args.getLastD "")

/-- One object of the emitted `compile_commands.json`. -/
structure DbEntry where
  directory : String
  command : String
  file : String
deriving DecidableEq, Repr

/-- `CompileCommands::write`, abstracted to the list of JSON objects it
serializes (in file order): it filters the compile-kind nodes and emits, for
each, `"directory": "."`, the printed command line, and the absolute source
path. -/
def CompileCommands.write (cwd : String) (cc : CompileCommands) : List DbEntry :=
  (cc.cmds.filter (fun c => c.compile)).map
    (fun c => ⟨".", c.print_str, c.get_abs_file cwd⟩)

/-! ### Interleaving model of `CompileCommands::execute`

The C++ scheduler runs `P` worker threads over shared state: per-node atomic
in-degree counters, a mutex-protected ready queue, and a list of completed
commands.  The model below keeps exactly that shared state and exposes the
two shared-state transitions a worker performs — taking a node off the ready
queue to run it, and completing a node (decrementing each successor's counter
and enqueueing the ones that reach zero while enabled).  Thread interleaving
becomes nondeterministic choice between `Step`s; the fail-fast `stop` flag
and the `remaining` counter only gate termination, not the edge discipline,
and are omitted. -/

/-- Whether plan node `i` is enabled (`cmds[i].is_enabled()`). -/
def nodeEnabled (p : CompileCommands) (i : Nat) : Bool :=
  ((p.cmds.getD i default).enabled)

/-- The successor propagation loop shared by the seed phase and the worker
loop: for each out-edge of `t`, decrement the successor's counter and push
it on the ready queue if the new value is zero and the successor is
enabled. -/
def propagate (p : CompileCommands) (t : Nat) :
    List Int × List Nat → List Int × List Nat :=
  fun st =>
    (p.outs.getD t []).foldl
      (fun st2 d =>
        let nd := st2.1.getD d 0 - 1
        let ind := st2.1.set d nd
        if nd = 0 ∧ nodeEnabled p d then (ind, st2.2 ++ [d])
        else (ind, st2.2))
      st

/-- The working in-degrees before seeding: the stored in-degree for enabled
nodes, zero for disabled ones ("disabled = already done"). -/
def seedInit (p : CompileCommands) : List Int :=
  (List.range p.cmds.length).map
    (fun i => if nodeEnabled p i then (p.in_degree.getD i 0 : Int) else 0)

/-- The seed loop of `CompileCommands::execute`: enabled nodes with counter
zero are pushed; disabled nodes immediately propagate to their successors. -/
def seed (p : CompileCommands) : List Int × List Nat :=
  (List.range p.cmds.length).foldl
    (fun st i =>
      if nodeEnabled p i then
        (if st.1.getD i 0 = 0 then (st.1, st.2 ++ [i]) else st)
      else propagate p i st)
    (seedInit p, [])

/-- Shared scheduler state: working in-degrees, the ready queue, the nodes
currently being run by some worker, and the nodes whose command has
finished (in completion order, with multiplicity). -/
structure SchedState where
  indeg : List Int
  ready : List Nat
  running : List Nat
  finished : List Nat
deriving DecidableEq, Repr

/-- The scheduler state right after seeding, before any worker runs. -/
def initState (p : CompileCommands) : SchedState :=
  ⟨(seed p).1, (seed p).2, [], []⟩

/-- One shared-state transition of a worker: dequeue the front of the ready
queue to run it, or finish a running node and propagate along its
out-edges. -/
inductive Step (p : CompileCommands) : SchedState → SchedState → Prop
  | dispatch (t : Nat) (rest : List Nat) (ind : List Int)
      (run fin : List Nat) :
      Step p ⟨ind, t :: rest, run, fin⟩ ⟨ind, rest, run ++ [t], fin⟩
  | finish (t : Nat) (ind : List Int) (rdy : List Nat)
      (run1 run2 fin : List Nat) :
      Step p ⟨ind, rdy, run1 ++ t :: run2, fin⟩
        ⟨(propagate p t (ind, rdy)).1, (propagate p t (ind, rdy)).2,
         run1 ++ run2, fin ++ [t]⟩

/-- States the scheduler can reach from the seeded state. -/
def Reach (p : CompileCommands) (σ : SchedState) : Prop :=
  Relation.ReflTransGen (Step p) (initState p) σ

/-! ### Spec-side closed forms for the planner

The following definitions restate, in the spec's vocabulary, what the plan
produced by `Unit.compile_impl` looks like; the theorems below prove that
the planner refines them. -/

mutual
/-- Spec-side staleness decision (from the spec's rebuild rules): OR of the
children's rebuild flags, target missing, a header dep newer than the
target, and — depending on whether the unit is a compile or a link unit —
the source or some dep object newer than the target.  A unit without a
target reports `false`. -/
def Unit.rebuildSpec (fs : FS) : Unit → Bool
  | .mk deps sp tp _ _ _ =>
    match tp with
    | Option.none => false
    | Option.some t =>
      UnitList.anyRebuild fs deps || !fs.fexists t ||
        (UnitList.headerDeps deps).any (fun h => decide (fs.mtime h > fs.mtime t)) ||
        match sp with
        | Option.some s => decide (fs.mtime s > fs.mtime t)
        | Option.none =>
          (UnitList.depTargets deps).any (fun o => decide (fs.mtime o > fs.mtime t))

/-- OR of the rebuild flags of a list of children. -/
def UnitList.anyRebuild (fs : FS) : UnitList → Bool
  | .nil => false
  | .cons c rest => Unit.rebuildSpec fs c || UnitList.anyRebuild fs rest
end

mutual
/-- Number of plan nodes a subtree emits: one per unit with a target. -/
def Unit.numNodes : Unit → Nat
  | .mk deps _ tp _ _ _ =>
    UnitList.numNodes deps + (if tp.isSome then 1 else 0)

def UnitList.numNodes : UnitList → Nat
  | .nil => 0
  | .cons c rest => c.numNodes + rest.numNodes
end

mutual
/-- All subunits of a tree in planner (post-) order, each with the list of
its proper ancestors (root first) and the plan index at which its own
recursion starts. -/
def Unit.subPaths : Unit → List Unit → Nat → List (List Unit × Unit × Nat)
  | .mk deps sp tp cf lf comp, anc, s =>
    UnitList.subPaths deps (anc ++ [.mk deps sp tp cf lf comp]) s ++
      [(anc, .mk deps sp tp cf lf comp, s)]

def UnitList.subPaths : UnitList → List Unit → Nat → List (List Unit × Unit × Nat)
  | .nil, _, _ => []
  | .cons c rest, anc, s =>
    Unit.subPaths c anc s ++ UnitList.subPaths rest anc (s + c.numNodes)
end

/-- The children of a list, each paired with the plan index at which its
recursion starts. -/
def UnitList.offsets : UnitList → Nat → List (Unit × Nat)
  | .nil, _ => []
  | .cons c rest, s => (c, s) :: rest.offsets (s + c.numNodes)

/-- The `node_id`s the children of a unit hand back to their parent, in
child order: `some` (the last index of the child's segment) for children
with a target, `none` otherwise. -/
def UnitList.idsFrom : UnitList → Nat → List (Option Nat)
  | .nil, _ => []
  | .cons c rest, s =>
    (if c.target_path.isSome then Option.some (s + c.numNodes - 1)
     else Option.none) :: rest.idsFrom (s + c.numNodes)

/-- The nearest enclosing EXECUTABLE / STATIC_LIB / DYNAMIC_LIB kind along a
root-to-node path (node included), starting from the kind the root call was
seeded with: each unit of one of those three kinds replaces the context. -/
def nearestKind (init : TargetType) (path : List Unit) : TargetType :=
  path.foldl (fun k a => effKind a k) init

/-- The flags a node inherits from a list of ancestors (oldest first). -/
def inheritedFlags (anc : List Unit) : List String :=
  (anc.map Unit.compile_flags).flatten

/-- The command `Unit::compile_impl` emits for a unit with a target, given
the effective ancestor kind `tw` (node included) and the inherited flags
`iw`: the compile form for source units, the link/archive form otherwise. -/
def emittedCmd (fs : FS) (full_rebuild : Bool) (w : Unit) (tw : TargetType)
    (iw : List String) : CompileCommand :=
  match w.target_path, w.source_path with
  | Option.some t, Option.some src =>
    ⟨w.compiler,
     (if tw = .DYNAMIC_LIB then ["-fPIC"] else []) ++
       (iw ++ w.compile_flags) ++ ["-MMD", "-c", "-o", t, src],
     Unit.rebuildSpec fs w || full_rebuild, true⟩
  | Option.some t, Option.none =>
    ⟨(if w.target_type = .STATIC_LIB then "ar" else w.compiler),
     (((if w.target_type = .DYNAMIC_LIB then ["-shared"]
        else if w.target_type = .STATIC_LIB then ["rcs"] else []) ++
       (if w.target_type = .DYNAMIC_LIB ∨ w.target_type = .EXECUTABLE
        then w.link_flags else [])) ++
      ["-o", t]) ++ UnitList.depTargets w.deps,
     Unit.rebuildSpec fs w || full_rebuild, false⟩
  | Option.none, _ => default

/-! ### Helper lemmas -/

theorem foldl_or_any {α : Type} (f : α → Bool) (l : List α) :
    ∀ b : Bool, l.foldl (fun r x => r || f x) b = (b || l.any f) := by
  induction l with
  | nil => intro b; simp
  | cons x l ih =>
    intro b
    rw [List.foldl_cons, ih (b || f x), List.any_cons, Bool.or_assoc]

theorem mem_getD_set {x : List Nat} {b : Nat} :
    ∀ (l : List (List Nat)) (i a : Nat), b ∈ (l.set i x).getD a [] →
      (a = i ∧ b ∈ x) ∨ b ∈ l.getD a [] := by
  intro l
  induction l with
  | nil => intro i a h; simp at h
  | cons y l ih =>
    intro i a h
    cases i with
    | zero => cases a with
      | zero => simp_all
      | succ a => simp_all
    | succ i => cases a with
      | zero => simp_all
      | succ a => simpa using ih i a (by simpa using h)

mutual
theorem Unit.subPaths_bounds : ∀ (u : Unit) (anc : List Unit) (s : Nat)
    (e : List Unit × Unit × Nat), e ∈ Unit.subPaths u anc s →
    s ≤ e.2.2 ∧ e.2.2 + e.2.1.numNodes ≤ s + u.numNodes
  | .mk deps sp tp cf lf comp, anc, s, e => by
    intro h
    simp only [Unit.subPaths, List.mem_append, List.mem_singleton] at h
    rcases h with h | rfl
    · have := UnitList.subPaths_bounds_list deps _ _ _ h
      simp only [Unit.numNodes]
      omega
    · simp only [Unit.numNodes]
      omega

theorem UnitList.subPaths_bounds_list : ∀ (us : UnitList) (anc : List Unit) (s : Nat)
    (e : List Unit × Unit × Nat), e ∈ UnitList.subPaths us anc s →
    s ≤ e.2.2 ∧ e.2.2 + e.2.1.numNodes ≤ s + us.numNodes
  | .nil, _, s, e => by intro h; simp [UnitList.subPaths] at h
  | .cons c rest, anc, s, e => by
    intro h
    simp only [UnitList.subPaths, List.mem_append] at h
    rcases h with h | h
    · have := Unit.subPaths_bounds c _ _ _ h
      simp only [UnitList.numNodes]
      omega
    · have := UnitList.subPaths_bounds_list rest _ _ _ h
      simp only [UnitList.numNodes]
      omega
end

mutual
theorem Unit.subPaths_prepend : ∀ (u : Unit) (A : List Unit) (s : Nat),
    Unit.subPaths u A s = (Unit.subPaths u [] s).map (fun e => (A ++ e.1, e.2))
  | .mk deps sp tp cf lf comp, A, s => by
    simp only [Unit.subPaths, List.nil_append,
      UnitList.subPaths_prepend_list deps (A ++ [.mk deps sp tp cf lf comp]) s,
      UnitList.subPaths_prepend_list deps [.mk deps sp tp cf lf comp] s,
      List.map_append, List.map_map, List.map_cons, List.map_nil]
    congr 1
    · apply List.map_congr_left
      intro e _
      simp [List.append_assoc]
    · simp

theorem UnitList.subPaths_prepend_list : ∀ (us : UnitList) (A : List Unit) (s : Nat),
    UnitList.subPaths us A s = (UnitList.subPaths us [] s).map (fun e => (A ++ e.1, e.2))
  | .nil, _, _ => by simp [UnitList.subPaths]
  | .cons c rest, A, s => by
    simp only [UnitList.subPaths, List.map_append]
    rw [Unit.subPaths_prepend c A s,
      UnitList.subPaths_prepend_list rest A (s + c.numNodes)]
end

theorem UnitList.offsets_bounds : ∀ (us : UnitList) (s : Nat) (c : Unit) (sc : Nat),
    (c, sc) ∈ us.offsets s → s ≤ sc ∧ sc + c.numNodes ≤ s + us.numNodes
  | .nil, s, c, sc => by intro h; simp [UnitList.offsets] at h
  | .cons c0 rest, s, c, sc => by
    intro h
    simp only [UnitList.offsets, List.mem_cons, Prod.mk.injEq] at h
    rcases h with ⟨rfl, rfl⟩ | h
    · simp only [UnitList.numNodes]; omega
    · have := UnitList.offsets_bounds rest (s + c0.numNodes) c sc h
      simp only [UnitList.numNodes]; omega

theorem getD_append_lt {α : Type} (d : α) (l l2 : List α) (k : Nat)
    (h : k < l.length) : (l ++ l2).getD k d = l.getD k d := by
  simp [List.getD_eq_getElem?_getD, List.getElem?_append_left h]

theorem getD_concat_self {α : Type} (d : α) (l : List α) (x : α) :
    (l ++ [x]).getD l.length d = x := by
  simp [List.getD_eq_getElem?_getD, List.getElem?_concat_length]

theorem getD_set_ne {α : Type} (d : α) {i k : Nat} (h : k ≠ i)
    (l : List α) (x : α) : (l.set i x).getD k d = l.getD k d := by
  simp [List.getD_eq_getElem?_getD, List.getElem?_set_ne (Ne.symm h)]

theorem Unit.numNodes_pos (w : Unit) (h : w.target_path.isSome = true) :
    1 ≤ w.numNodes := by
  cases w with
  | mk deps sp tp cf lf comp =>
    simp only [Unit.target_path] at h
    simp only [Unit.numNodes, h, if_pos]
    omega

theorem wireEdges_cmds : ∀ (ids : List (Option Nat)) (j : Nat)
    (cc : CompileCommands), (wireEdges ids j cc).cmds = cc.cmds := by
  intro ids
  induction ids with
  | nil => intro j cc; rfl
  | cons oid rest ih =>
    intro j cc
    cases oid with
    | none => exact ih j cc
    | some i =>
      rw [wireEdges, List.foldl_cons]
      show (wireEdges rest j (cc.add_edge i j).2).cmds = cc.cmds
      rw [ih]
      unfold CompileCommands.add_edge
      split <;> rfl

theorem wireEdges_outs_length : ∀ (ids : List (Option Nat)) (j : Nat)
    (cc : CompileCommands), (wireEdges ids j cc).outs.length = cc.outs.length := by
  intro ids
  induction ids with
  | nil => intro j cc; rfl
  | cons oid rest ih =>
    intro j cc
    cases oid with
    | none => exact ih j cc
    | some i =>
      rw [wireEdges, List.foldl_cons]
      show (wireEdges rest j (cc.add_edge i j).2).outs.length = cc.outs.length
      rw [ih]
      unfold CompileCommands.add_edge
      split <;> simp

theorem wireEdges_in_degree_length : ∀ (ids : List (Option Nat)) (j : Nat)
    (cc : CompileCommands),
    (wireEdges ids j cc).in_degree.length = cc.in_degree.length := by
  intro ids
  induction ids with
  | nil => intro j cc; rfl
  | cons oid rest ih =>
    intro j cc
    cases oid with
    | none => exact ih j cc
    | some i =>
      rw [wireEdges, List.foldl_cons]
      show (wireEdges rest j (cc.add_edge i j).2).in_degree.length =
        cc.in_degree.length
      rw [ih]
      unfold CompileCommands.add_edge
      split <;> simp

theorem wireEdges_outs_mem {b : Nat} : ∀ (ids : List (Option Nat)) (j : Nat)
    (cc : CompileCommands) (a : Nat), b ∈ (wireEdges ids j cc).outs.getD a [] →
    b ∈ cc.outs.getD a [] ∨ (Option.some a ∈ ids ∧ b = j) := by
  intro ids
  induction ids with
  | nil => intro j cc a h; exact Or.inl h
  | cons oid rest ih =>
    intro j cc a h
    cases oid with
    | none =>
      rcases ih j cc a h with h2 | h2
      · exact Or.inl h2
      · exact Or.inr ⟨List.mem_cons_of_mem _ h2.1, h2.2⟩
    | some i =>
      rw [wireEdges, List.foldl_cons] at h
      rcases ih j (cc.add_edge i j).2 a h with h2 | h2
      · unfold CompileCommands.add_edge at h2
        split at h2
        · rcases mem_getD_set _ i a h2 with ⟨rfl, hbx⟩ | hold
          · rcases List.mem_append.mp hbx with hb | hb
            · exact Or.inl hb
            · exact Or.inr ⟨List.mem_cons_self _ _, List.mem_singleton.mp hb⟩
          · exact Or.inl hold
        · exact Or.inl h2
      · exact Or.inr ⟨List.mem_cons_of_mem _ h2.1, h2.2⟩

theorem wireEdges_outs_lt : ∀ (ids : List (Option Nat)) (j : Nat)
    (cc : CompileCommands) (k : Nat), (∀ i, Option.some i ∈ ids → k ≠ i) →
    (wireEdges ids j cc).outs.getD k [] = cc.outs.getD k [] := by
  intro ids
  induction ids with
  | nil => intro j cc k _; rfl
  | cons oid rest ih =>
    intro j cc k hk
    cases oid with
    | none => exact ih j cc k (fun i hi => hk i (List.mem_cons_of_mem _ hi))
    | some i =>
      rw [wireEdges, List.foldl_cons]
      show (wireEdges rest j (cc.add_edge i j).2).outs.getD k [] = _
      rw [ih j _ k (fun i2 hi2 => hk i2 (List.mem_cons_of_mem _ hi2))]
      unfold CompileCommands.add_edge
      split
      · exact getD_set_ne _ (hk i (List.mem_cons_self _ _)) _ _
      · rfl

theorem UnitList.idsFrom_offsets : ∀ (us : UnitList) (s : Nat) (a : Nat),
    Option.some a ∈ us.idsFrom s →
    ∃ c sc, (c, sc) ∈ us.offsets s ∧ c.target_path.isSome ∧ a = sc + c.numNodes - 1
  | .nil, s, a => by intro h; simp [UnitList.idsFrom] at h
  | .cons c0 rest, s, a => by
    intro h
    simp only [UnitList.idsFrom, List.mem_cons] at h
    rcases h with h | h
    · by_cases ht : c0.target_path.isSome
      · simp only [ht, if_pos] at h
        exact ⟨c0, s, by simp [UnitList.offsets], ht, by simpa using h⟩
      · simp [ht] at h
    · obtain ⟨c, sc, hm, hts, rfl⟩ := UnitList.idsFrom_offsets rest (s + c0.numNodes) a h
      exact ⟨c, sc, by simp [UnitList.offsets, hm], hts, rfl⟩

theorem UnitList.idsFrom_ge : ∀ (us : UnitList) (s : Nat) (a : Nat),
    Option.some a ∈ us.idsFrom s → s ≤ a := by
  intro us s a h
  obtain ⟨c, sc, hm, hts, rfl⟩ := UnitList.idsFrom_offsets us s a h
  have hb := UnitList.offsets_bounds us s c sc hm
  have := Unit.numNodes_pos c hts
  omega

theorem getD_default_of_le {α : Type} (d : α) (l : List α) (k : Nat)
    (h : l.length ≤ k) : l.getD k d = d := by
  simp [List.getD_eq_getElem?_getD, List.getElem?_eq_none h]

/-! ### The master characterization of the planner

The mutual theorem below relates one call of `Unit.compile_impl` to the
spec-side closed forms: the plan grows by `numNodes` commands, existing
entries are untouched, the returned flag is `rebuildSpec`, the returned
node id is the last index of the subtree's segment, every subunit's command
is `emittedCmd` under the threaded ancestor kind and inherited flags, and
every new edge connects a direct child's node to its link/archive parent's
node. -/

/-- Edge provenance for the subtree rooted at plan offset `s`: the edge
`(a, b)` connects the node emitted for a direct child of a link/archive
subunit to that subunit's own node. -/
def EdgeProv (u : Unit) (s a b : Nat) : Prop :=
  ∃ anc w sw, (anc, w, sw) ∈ Unit.subPaths u [] s ∧ w.target_path.isSome = true ∧
    w.source_path = Option.none ∧ b = sw + w.numNodes - 1 ∧
    ∃ c sc, (c, sc) ∈ UnitList.offsets w.deps sw ∧ c.target_path.isSome = true ∧
      a = sc + c.numNodes - 1

/-- `EdgeProv` for a forest of children. -/
def EdgeProvL (us : UnitList) (s a b : Nat) : Prop :=
  ∃ anc w sw, (anc, w, sw) ∈ UnitList.subPaths us [] s ∧ w.target_path.isSome = true ∧
    w.source_path = Option.none ∧ b = sw + w.numNodes - 1 ∧
    ∃ c sc, (c, sc) ∈ UnitList.offsets w.deps sw ∧ c.target_path.isSome = true ∧
      a = sc + c.numNodes - 1

theorem EdgeProvL_lift {deps : UnitList} {s a b : Nat} (sp tp : Option String)
    (cf lf : List String) (comp : String) (h : EdgeProvL deps s a b) :
    EdgeProv (.mk deps sp tp cf lf comp) s a b := by
  obtain ⟨anc, w, sw, hm, h1, h2, h3, h4⟩ := h
  refine ⟨Unit.mk deps sp tp cf lf comp :: anc, w, sw, ?_, h1, h2, h3, h4⟩
  simp only [Unit.subPaths, List.nil_append, List.mem_append]
  left
  rw [UnitList.subPaths_prepend_list deps [Unit.mk deps sp tp cf lf comp] s]
  exact List.mem_map.mpr ⟨(anc, w, sw), hm, rfl⟩

theorem EdgeProvL_cons_left {c : Unit} {rest : UnitList} {s a b : Nat}
    (h : EdgeProv c s a b) : EdgeProvL (.cons c rest) s a b := by
  obtain ⟨anc, w, sw, hm, h1, h2, h3, h4⟩ := h
  exact ⟨anc, w, sw,
    by simp only [UnitList.subPaths, List.mem_append]; exact Or.inl hm,
    h1, h2, h3, h4⟩

theorem EdgeProvL_cons_right {c : Unit} {rest : UnitList} {s a b : Nat}
    (h : EdgeProvL rest (s + c.numNodes) a b) : EdgeProvL (.cons c rest) s a b := by
  obtain ⟨anc, w, sw, hm, h1, h2, h3, h4⟩ := h
  exact ⟨anc, w, sw,
    by simp only [UnitList.subPaths, List.mem_append]; exact Or.inr hm,
    h1, h2, h3, h4⟩

/-- What one `Unit.compile_impl` call guarantees (see section header). -/
def MasterP (fs : FS) (full : Bool) (u : Unit) (cc : CompileCommands)
    (ttp : TargetType) (inh : List String) : Prop :=
  (Unit.compile_impl fs full u cc ttp inh).1.cmds.length =
    cc.cmds.length + u.numNodes ∧
  WFP (Unit.compile_impl fs full u cc ttp inh).1 ∧
  (∀ k, k < cc.cmds.length →
    (Unit.compile_impl fs full u cc ttp inh).1.cmds[k]? = cc.cmds[k]? ∧
    (Unit.compile_impl fs full u cc ttp inh).1.outs.getD k [] =
      cc.outs.getD k []) ∧
  (Unit.compile_impl fs full u cc ttp inh).2.1 = Unit.rebuildSpec fs u ∧
  (Unit.compile_impl fs full u cc ttp inh).2.2 =
    (if u.target_path.isSome then
      Option.some (cc.cmds.length + u.numNodes - 1) else Option.none) ∧
  (∀ anc w sw, (anc, w, sw) ∈ Unit.subPaths u [] cc.cmds.length →
    w.target_path.isSome = true →
    (Unit.compile_impl fs full u cc ttp inh).1.cmds[sw + w.numNodes - 1]? =
      Option.some (emittedCmd fs full w (nearestKind ttp (anc ++ [w]))
        (inh ++ inheritedFlags anc))) ∧
  (∀ a b, b ∈ (Unit.compile_impl fs full u cc ttp inh).1.outs.getD a [] →
    b ∈ cc.outs.getD a [] ∨ EdgeProv u cc.cmds.length a b)

/-- What one `UnitList.compile_list` call guarantees. -/
def MasterPL (fs : FS) (full : Bool) (us : UnitList) (cc : CompileCommands)
    (ttp : TargetType) (inh : List String) : Prop :=
  (UnitList.compile_list fs full us cc ttp inh).1.cmds.length =
    cc.cmds.length + us.numNodes ∧
  WFP (UnitList.compile_list fs full us cc ttp inh).1 ∧
  (∀ k, k < cc.cmds.length →
    (UnitList.compile_list fs full us cc ttp inh).1.cmds[k]? = cc.cmds[k]? ∧
    (UnitList.compile_list fs full us cc ttp inh).1.outs.getD k [] =
      cc.outs.getD k []) ∧
  (UnitList.compile_list fs full us cc ttp inh).2.2 =
    UnitList.anyRebuild fs us ∧
  (UnitList.compile_list fs full us cc ttp inh).2.1 =
    us.idsFrom cc.cmds.length ∧
  (∀ anc w sw, (anc, w, sw) ∈ UnitList.subPaths us [] cc.cmds.length →
    w.target_path.isSome = true →
    (UnitList.compile_list fs full us cc ttp inh).1.cmds[sw + w.numNodes - 1]? =
      Option.some (emittedCmd fs full w (nearestKind ttp (anc ++ [w]))
        (inh ++ inheritedFlags anc))) ∧
  (∀ a b, b ∈ (UnitList.compile_list fs full us cc ttp inh).1.outs.getD a [] →
    b ∈ cc.outs.getD a [] ∨ EdgeProvL us cc.cmds.length a b)


mutual
theorem Unit.master : ∀ (u : Unit) (fs : FS) (full : Bool) (cc : CompileCommands)
    (ttp : TargetType) (inh : List String), WFP cc → MasterP fs full u cc ttp inh
  | .mk deps sp tp cf lf comp, fs, full, cc, ttp, inh => by
    intro hwf
    have hL := UnitList.master_list deps fs full cc
      (if targetTypeOfPath tp = TargetType.EXECUTABLE ∨
          targetTypeOfPath tp = TargetType.DYNAMIC_LIB ∨
          targetTypeOfPath tp = TargetType.STATIC_LIB
       then targetTypeOfPath tp else ttp)
      (inh ++ cf) hwf
    unfold MasterPL at hL
    obtain ⟨hLlen, hLwf, hLpres, hLrb, hLids, hLemit, hLedge⟩ := hL
    unfold MasterP
    cases tp with
    | none =>
      simp only [Unit.compile_impl]
      refine ⟨?_, hLwf, hLpres, ?_, ?_, ?_, ?_⟩
      · rw [hLlen]
        simp [Unit.numNodes]
      · simp only [Unit.rebuildSpec]
      · simp only [Unit.target_path, Option.isSome_none]
        rfl
      · intro anc w sw hmem hts
        simp only [Unit.subPaths, List.nil_append, List.mem_append,
          List.mem_singleton] at hmem
        rcases hmem with hmem | heq
        · rw [UnitList.subPaths_prepend_list deps
            [Unit.mk deps sp Option.none cf lf comp] cc.cmds.length] at hmem
          obtain ⟨e, he, heq⟩ := List.mem_map.mp hmem
          obtain ⟨anc2, w2, sw2⟩ := e
          injection heq with h1 h23
          injection h23 with h2 h3
          subst h1; subst h2; subst h3
          rw [hLemit anc2 w2 sw2 he hts]
          have hkind : nearestKind ttp
              (([Unit.mk deps sp Option.none cf lf comp] ++ anc2) ++ [w2]) =
              nearestKind (if targetTypeOfPath Option.none = TargetType.EXECUTABLE ∨
                targetTypeOfPath Option.none = TargetType.DYNAMIC_LIB ∨
                targetTypeOfPath Option.none = TargetType.STATIC_LIB
                then targetTypeOfPath Option.none else ttp) (anc2 ++ [w2]) := by
            simp only [List.singleton_append, List.cons_append, List.nil_append,
              nearestKind, List.foldl_cons, effKind, Unit.target_type,
              Unit.target_path]
          have hfl : inh ++ inheritedFlags
              ([Unit.mk deps sp Option.none cf lf comp] ++ anc2) =
              (inh ++ cf) ++ inheritedFlags anc2 := by
            simp [inheritedFlags, Unit.compile_flags, List.append_assoc]
          rw [hkind, hfl]
        · injection heq with h1 h23
          injection h23 with h2 h3
          subst h1; subst h2; subst h3
          simp only [Unit.target_path, Option.isSome_none] at hts
          exact absurd hts (by simp)
      · intro a b hb
        rcases hLedge a b hb with h | h
        · exact Or.inl h
        · exact Or.inr (EdgeProvL_lift sp Option.none cf lf comp h)
    | some target =>
      cases sp with
      | some source =>
        simp only [Unit.compile_impl, CompileCommands.add_cmd]
        revert hLlen hLwf hLpres hLrb hLids hLemit hLedge
        generalize hT : (if targetTypeOfPath (Option.some target) = TargetType.EXECUTABLE ∨
            targetTypeOfPath (Option.some target) = TargetType.DYNAMIC_LIB ∨
            targetTypeOfPath (Option.some target) = TargetType.STATIC_LIB
          then targetTypeOfPath (Option.some target) else ttp) = T
        generalize hC : UnitList.compile_list fs full deps cc T (inh ++ cf) = R
        intro hLlen hLwf hLpres hLrb hLids hLemit hLedge
        unfold WFP at hLwf
        obtain ⟨hLwfo, hLwfi⟩ := hLwf
        have hrb : ((UnitList.headerDeps deps).foldl
            (fun r h => r || decide (fs.mtime h > fs.mtime target))
            (R.2.2 || !fs.fexists target) ||
            decide (fs.mtime source > fs.mtime target)) =
            Unit.rebuildSpec fs
              (Unit.mk deps (Option.some source) (Option.some target) cf lf comp) := by
          rw [foldl_or_any (fun h => decide (fs.mtime h > fs.mtime target))
            (UnitList.headerDeps deps) (R.2.2 || !fs.fexists target)]
          rw [hLrb]
          simp only [Unit.rebuildSpec]
        refine ⟨?_, ?_, ?_, hrb, ?_, ?_, ?_⟩
        · rw [List.length_append, hLlen]
          simp [Unit.numNodes]
          omega
        · unfold WFP
          simp only [List.length_append, List.length_cons, List.length_nil]
          omega
        · intro k hk
          have hk1 : k < R.1.cmds.length := by rw [hLlen]; omega
          refine ⟨?_, ?_⟩
          · rw [List.getElem?_append_left hk1]
            exact (hLpres k hk).1
          · rw [getD_append_lt _ _ _ k (by omega)]
            exact (hLpres k hk).2
        · rw [hLlen]
          simp [Unit.target_path, Unit.numNodes]
        · intro anc w sw hmem hts
          simp only [Unit.subPaths, List.nil_append, List.mem_append,
            List.mem_singleton] at hmem
          rcases hmem with hmem | heq
          · rw [UnitList.subPaths_prepend_list deps
              [Unit.mk deps (Option.some source) (Option.some target) cf lf comp]
              cc.cmds.length] at hmem
            obtain ⟨e, he, heq⟩ := List.mem_map.mp hmem
            obtain ⟨anc2, w2, sw2⟩ := e
            injection heq with h1 h23
            injection h23 with h2 h3
            subst h1; subst h2; subst h3
            have hbd := UnitList.subPaths_bounds_list deps [] cc.cmds.length
              (anc2, w2, sw2) he
            simp only at hbd
            have hpos := Unit.numNodes_pos w2 hts
            have hlt : sw2 + w2.numNodes - 1 < R.1.cmds.length := by
              rw [hLlen]; omega
            rw [List.getElem?_append_left hlt, hLemit anc2 w2 sw2 he hts]
            have hkind : nearestKind ttp
                (([Unit.mk deps (Option.some source) (Option.some target) cf lf comp]
                  ++ anc2) ++ [w2]) = nearestKind T (anc2 ++ [w2]) := by
              simp only [List.singleton_append, List.cons_append, List.nil_append,
                nearestKind, List.foldl_cons, effKind, Unit.target_type,
                Unit.target_path]
              rw [hT]
            have hfl : inh ++ inheritedFlags
                ([Unit.mk deps (Option.some source) (Option.some target) cf lf comp]
                  ++ anc2) = (inh ++ cf) ++ inheritedFlags anc2 := by
              simp [inheritedFlags, Unit.compile_flags, List.append_assoc]
            rw [hkind, hfl]
          · injection heq with h1 h23
            injection h23 with h2 h3
            subst h1; subst h2; subst h3
            have hidx : cc.cmds.length +
                (Unit.mk deps (Option.some source) (Option.some target)
                  cf lf comp).numNodes - 1 = R.1.cmds.length := by
              rw [hLlen]; simp [Unit.numNodes]
            rw [hidx, List.getElem?_concat_length, hrb]
            simp only [emittedCmd, Unit.target_path, Unit.source_path, Unit.compiler,
              Unit.compile_flags, nearestKind, List.nil_append, List.foldl_cons,
              List.foldl_nil, inheritedFlags, List.map_nil, List.flatten_nil,
              List.append_nil, effKind, Unit.target_type]
            rw [hT]
        · intro a b hb
          by_cases ha : a < R.1.outs.length
          · rw [getD_append_lt _ _ _ a ha] at hb
            rcases hLedge a b hb with h | h
            · exact Or.inl h
            · exact Or.inr (EdgeProvL_lift (Option.some source) (Option.some target)
                cf lf comp h)
          · exfalso
            rcases Nat.eq_or_lt_of_le (Nat.le_of_not_lt ha) with heq2 | hlt2
            · rw [← heq2, getD_concat_self] at hb
              simp at hb
            · rw [getD_default_of_le _ _ _ (by
                simp only [List.length_append, List.length_cons, List.length_nil]
                omega)] at hb
              simp at hb
      | none =>
        simp only [Unit.compile_impl, CompileCommands.add_cmd]
        revert hLlen hLwf hLpres hLrb hLids hLemit hLedge
        generalize hT : (if targetTypeOfPath (Option.some target) = TargetType.EXECUTABLE ∨
            targetTypeOfPath (Option.some target) = TargetType.DYNAMIC_LIB ∨
            targetTypeOfPath (Option.some target) = TargetType.STATIC_LIB
          then targetTypeOfPath (Option.some target) else ttp) = T
        generalize hC : UnitList.compile_list fs full deps cc T (inh ++ cf) = R
        intro hLlen hLwf hLpres hLrb hLids hLemit hLedge
        unfold WFP at hLwf
        obtain ⟨hLwfo, hLwfi⟩ := hLwf
        have hrb : ((UnitList.depTargets deps).foldl
            (fun r t2 => r || decide (fs.mtime t2 > fs.mtime target))
            ((UnitList.headerDeps deps).foldl
              (fun r h => r || decide (fs.mtime h > fs.mtime target))
              (R.2.2 || !fs.fexists target))) =
            Unit.rebuildSpec fs
              (Unit.mk deps Option.none (Option.some target) cf lf comp) := by
          rw [foldl_or_any (fun t2 => decide (fs.mtime t2 > fs.mtime target))
            (UnitList.depTargets deps)]
          rw [foldl_or_any (fun h => decide (fs.mtime h > fs.mtime target))
            (UnitList.headerDeps deps) (R.2.2 || !fs.fexists target)]
          rw [hLrb]
          simp only [Unit.rebuildSpec]
        refine ⟨?_, ?_, ?_, hrb, ?_, ?_, ?_⟩
        · rw [wireEdges_cmds, List.length_append, hLlen]
          simp [Unit.numNodes]
          omega
        · unfold WFP
          rw [wireEdges_cmds, wireEdges_outs_length, wireEdges_in_degree_length]
          simp only [List.length_append, List.length_cons, List.length_nil]
          omega
        · intro k hk
          have hk1 : k < R.1.cmds.length := by rw [hLlen]; omega
          have hne : ∀ i, Option.some i ∈ R.2.1 → k ≠ i := by
            intro i hi
            rw [hLids] at hi
            have := UnitList.idsFrom_ge deps cc.cmds.length i hi
            omega
          refine ⟨?_, ?_⟩
          · rw [wireEdges_cmds, List.getElem?_append_left hk1]
            exact (hLpres k hk).1
          · rw [wireEdges_outs_lt _ _ _ k hne, getD_append_lt _ _ _ k (by omega)]
            exact (hLpres k hk).2
        · rw [hLlen]
          simp [Unit.target_path, Unit.numNodes]
        · intro anc w sw hmem hts
          simp only [Unit.subPaths, List.nil_append, List.mem_append,
            List.mem_singleton] at hmem
          rcases hmem with hmem | heq
          · rw [UnitList.subPaths_prepend_list deps
              [Unit.mk deps Option.none (Option.some target) cf lf comp]
              cc.cmds.length] at hmem
            obtain ⟨e, he, heq⟩ := List.mem_map.mp hmem
            obtain ⟨anc2, w2, sw2⟩ := e
            injection heq with h1 h23
            injection h23 with h2 h3
            subst h1; subst h2; subst h3
            have hbd := UnitList.subPaths_bounds_list deps [] cc.cmds.length
              (anc2, w2, sw2) he
            simp only at hbd
            have hpos := Unit.numNodes_pos w2 hts
            have hlt : sw2 + w2.numNodes - 1 < R.1.cmds.length := by
              rw [hLlen]; omega
            rw [wireEdges_cmds, List.getElem?_append_left hlt,
              hLemit anc2 w2 sw2 he hts]
            have hkind : nearestKind ttp
                (([Unit.mk deps Option.none (Option.some target) cf lf comp]
                  ++ anc2) ++ [w2]) = nearestKind T (anc2 ++ [w2]) := by
              simp only [List.singleton_append, List.cons_append, List.nil_append,
                nearestKind, List.foldl_cons, effKind, Unit.target_type,
                Unit.target_path]
              rw [hT]
            have hfl : inh ++ inheritedFlags
                ([Unit.mk deps Option.none (Option.some target) cf lf comp]
                  ++ anc2) = (inh ++ cf) ++ inheritedFlags anc2 := by
              simp [inheritedFlags, Unit.compile_flags, List.append_assoc]
            rw [hkind, hfl]
          · injection heq with h1 h23
            injection h23 with h2 h3
            subst h1; subst h2; subst h3
            have hidx : cc.cmds.length +
                (Unit.mk deps Option.none (Option.some target)
                  cf lf comp).numNodes - 1 = R.1.cmds.length := by
              rw [hLlen]; simp [Unit.numNodes]
            rw [wireEdges_cmds, hidx, List.getElem?_concat_length, hrb]
            simp only [emittedCmd, Unit.target_path, Unit.source_path, Unit.compiler,
              Unit.compile_flags, Unit.link_flags, Unit.deps, nearestKind,
              List.nil_append, List.foldl_cons, List.foldl_nil, inheritedFlags,
              List.map_nil, List.flatten_nil, List.append_nil, effKind,
              Unit.target_type]
        · intro a b hb
          rcases wireEdges_outs_mem _ _ _ _ hb with h | h
          · by_cases ha : a < R.1.outs.length
            · rw [getD_append_lt _ _ _ a ha] at h
              rcases hLedge a b h with h2 | h2
              · exact Or.inl h2
              · exact Or.inr (EdgeProvL_lift Option.none (Option.some target)
                  cf lf comp h2)
            · exfalso
              rcases Nat.eq_or_lt_of_le (Nat.le_of_not_lt ha) with heq2 | hlt2
              · rw [← heq2, getD_concat_self] at h
                simp at h
              · rw [getD_default_of_le _ _ _ (by
                  simp only [List.length_append, List.length_cons, List.length_nil]
                  omega)] at h
                simp at h
          · obtain ⟨hin, rfl⟩ := h
            right
            rw [hLids] at hin
            obtain ⟨c2, sc, hm, hts2, rfl⟩ :=
              UnitList.idsFrom_offsets deps cc.cmds.length _ hin
            refine ⟨[], Unit.mk deps Option.none (Option.some target) cf lf comp,
              cc.cmds.length, ?_, by simp [Unit.target_path], rfl, ?_,
              c2, sc, ?_, hts2, rfl⟩
            · simp [Unit.subPaths]
            · rw [hLlen]
              simp [Unit.numNodes]
            · simpa [Unit.deps] using hm

theorem UnitList.master_list : ∀ (us : UnitList) (fs : FS) (full : Bool)
    (cc : CompileCommands) (ttp : TargetType) (inh : List String), WFP cc →
    MasterPL fs full us cc ttp inh
  | .nil, fs, full, cc, ttp, inh => by
    intro hwf
    unfold MasterPL
    simp only [UnitList.compile_list]
    refine ⟨by simp [UnitList.numNodes], hwf, by simp, by simp [UnitList.anyRebuild],
      by simp [UnitList.idsFrom], ?_, ?_⟩
    · intro anc w sw hmem
      simp [UnitList.subPaths] at hmem
    · intro a b hb
      exact Or.inl hb
  | .cons c rest, fs, full, cc, ttp, inh => by
    intro hwf
    have hU := Unit.master c fs full cc ttp inh hwf
    unfold MasterP at hU
    obtain ⟨hUlen, hUwf, hUpres, hUrb, hUnid, hUemit, hUedge⟩ := hU
    have hR := UnitList.master_list rest fs full
      (Unit.compile_impl fs full c cc ttp inh).1 ttp inh hUwf
    unfold MasterPL at hR
    obtain ⟨hRlen, hRwf, hRpres, hRrb, hRids, hRemit, hRedge⟩ := hR
    unfold MasterPL
    simp only [UnitList.compile_list]
    refine ⟨?_, hRwf, ?_, ?_, ?_, ?_, ?_⟩
    · rw [hRlen, hUlen]
      simp only [UnitList.numNodes]
      omega
    · intro k hk
      have hk1 : k < (Unit.compile_impl fs full c cc ttp inh).1.cmds.length := by
        rw [hUlen]; omega
      have h2 := hRpres k hk1
      have h1 := hUpres k hk
      exact ⟨h2.1.trans h1.1, h2.2.trans h1.2⟩
    · rw [hUrb, hRrb]
      simp only [UnitList.anyRebuild]
    · rw [hUnid, hRids, hUlen]
      simp only [UnitList.idsFrom]
    · intro anc w sw hmem hts
      simp only [UnitList.subPaths, List.mem_append] at hmem
      rcases hmem with hmem | hmem
      · have hbd := Unit.subPaths_bounds c [] cc.cmds.length (anc, w, sw) hmem
        simp only at hbd
        have hpos := Unit.numNodes_pos w hts
        have hlt : sw + w.numNodes - 1 <
            (Unit.compile_impl fs full c cc ttp inh).1.cmds.length := by
          rw [hUlen]; omega
        rw [(hRpres _ hlt).1]
        exact hUemit anc w sw hmem hts
      · rw [← hUlen] at hmem
        exact hRemit anc w sw hmem hts
    · intro a b hb
      rcases hRedge a b hb with h | h
      · rcases hUedge a b h with h2 | h2
        · exact Or.inl h2
        · exact Or.inr (EdgeProvL_cons_left h2)
      · rw [hUlen] at h
        exact Or.inr (EdgeProvL_cons_right h)
end

/-! ### Corollaries of the master theorem for the root call -/

theorem compile_impl_rb (fs : FS) (full : Bool) (w : Unit) (cc : CompileCommands)
    (ttp : TargetType) (inh : List String) (hwf : WFP cc) :
    (Unit.compile_impl fs full w cc ttp inh).2.1 = Unit.rebuildSpec fs w := by
  have h := Unit.master w fs full cc ttp inh hwf
  unfold MasterP at h
  exact h.2.2.2.1

theorem compile_emit (fs : FS) (full : Bool) (u : Unit) :
    ∀ anc w sw, (anc, w, sw) ∈ Unit.subPaths u [] 0 →
    w.target_path.isSome = true →
    (Unit.compile fs full u).cmds[sw + w.numNodes - 1]? =
      Option.some (emittedCmd fs full w (nearestKind u.target_type (anc ++ [w]))
        (inheritedFlags anc)) := by
  have h := Unit.master u fs full emptyPlan u.target_type [] ⟨rfl, rfl⟩
  unfold MasterP at h
  exact h.2.2.2.2.2.1

theorem compile_edges (fs : FS) (full : Bool) (u : Unit) :
    ∀ a b, b ∈ (Unit.compile fs full u).outs.getD a [] → EdgeProv u 0 a b := by
  have h := Unit.master u fs full emptyPlan u.target_type [] ⟨rfl, rfl⟩
  unfold MasterP at h
  intro a b hb
  rcases h.2.2.2.2.2.2 a b hb with h2 | h2
  · simp [emptyPlan] at h2
  · exact h2

theorem emittedCmd_enabled (fs : FS) (full : Bool) (w : Unit) (tw : TargetType)
    (iw : List String) (t : String) (h : w.target_path = Option.some t) :
    (emittedCmd fs full w tw iw).enabled = (Unit.rebuildSpec fs w || full) := by
  cases hs : w.source_path <;> simp [emittedCmd, h, hs]

theorem emittedCmd_not_compile (fs : FS) (full : Bool) (w : Unit) (tw : TargetType)
    (iw : List String) (t : String) (ht : w.target_path = Option.some t)
    (hs : w.source_path = Option.none) :
    (emittedCmd fs full w tw iw).compile = false := by
  simp [emittedCmd, ht, hs]

theorem Unit.numNodes_eq (w : Unit) (h : w.target_path.isSome = true) :
    w.numNodes = UnitList.numNodes w.deps + 1 := by
  cases w with
  | mk d s t cf lf c =>
    simp only [Unit.target_path] at h
    simp [Unit.numNodes, Unit.deps, h]

/-! ### Concrete inputs used by witnesses and counterexamples -/

/-- A filesystem on which nothing exists. -/
def fs0 : FS := ⟨fun _ => false, fun _ => 0⟩

/-- Compile unit `src/x1.cpp → build/x1.o`. -/
def unitX1 : Unit :=
  .mk .nil (Option.some "src/x1.cpp") (Option.some "build/x1.o") [] [] "c++"

/-- Compile unit `src/x2.cpp → build/x2.o`. -/
def unitX2 : Unit :=
  .mk .nil (Option.some "src/x2.cpp") (Option.some "build/x2.o") [] [] "c++"

/-- Static library `build/libx.a` from the two objects, with a link flag. -/
def treeA : Unit :=
  .mk (.cons unitX1 (.cons unitX2 .nil)) Option.none (Option.some "build/libx.a")
    [] ["-Lfoo"] "c++"

/-- Compile unit with a local compile flag, for the dynamic-library tree. -/
def unitY : Unit :=
  .mk .nil (Option.some "src/y.cpp") (Option.some "build/y.o") ["-O2"] [] "c++"

/-- Dynamic library `build/liby.so` with one compile-unit child. -/
def treeSo : Unit :=
  .mk (.cons unitY .nil) Option.none (Option.some "build/liby.so") ["-Wall"] []
    "c++"

/-- An executable whose only input is a nested static-library link unit. -/
def treeNest : Unit :=
  .mk (.cons (.mk .nil Option.none (Option.some "build/libx.a") [] [] "c++") .nil)
    Option.none (Option.some "build/out") [] [] "c++"

/-! ### Claim theorems -/

/-- C1: for every Unit with a target in a tree, the planner's rebuild
decision — the flag `Unit::compile_impl` returns for that unit, in any
planning context — equals `Unit.rebuildSpec`, which is by definition the
claimed formula (OR of the children's returned flags, `!exists(target)`,
some header-dep mtime > target mtime, and source mtime > target mtime for
compile units resp. some dep-object mtime > target mtime for link units);
and the `enabled` flag of the plan node emitted for that unit equals
`rebuild || full_rebuild`. -/
theorem c1_rebuild_decision (fs : FS) (full : Bool) (u : Unit) (anc : List Unit)
    (w : Unit) (sw : Nat) (t : String) (cc : CompileCommands) (ttp : TargetType)
    (inh : List String) (hmem : (anc, w, sw) ∈ Unit.subPaths u [] 0)
    (ht : w.target_path = Option.some t) (hwf : WFP cc) :
    (Unit.compile_impl fs full w cc ttp inh).2.1 = Unit.rebuildSpec fs w ∧
    ((Unit.compile fs full u).cmds.getD (sw + w.numNodes - 1) default).enabled =
      (Unit.rebuildSpec fs w || full) := by
  refine ⟨compile_impl_rb fs full w cc ttp inh hwf, ?_⟩
  have hE := compile_emit fs full u anc w sw hmem (by rw [ht]; rfl)
  rw [List.getD_eq_getElem?_getD, hE]
  simp only [Option.getD_some]
  exact emittedCmd_enabled fs full w _ _ t ht

/-- C1 witness: the compile unit `src/x1.cpp → build/x1.o` inside `treeA`
on the empty filesystem. -/
theorem c1_rebuild_decision_witness :
    ((Unit.compile_impl fs0 false unitX1 emptyPlan TargetType.NONE []).2.1 =
      Unit.rebuildSpec fs0 unitX1) ∧
    ((Unit.compile fs0 false treeA).cmds.getD (0 + unitX1.numNodes - 1)
      default).enabled = (Unit.rebuildSpec fs0 unitX1 || false) :=
  c1_rebuild_decision fs0 false treeA [treeA] unitX1 0 "build/x1.o" emptyPlan
    TargetType.NONE [] (by decide) rfl ⟨rfl, rfl⟩

/-- C2: every compile unit's emitted command runs the node's compiler with
`is_compile = true` and argv exactly `-fPIC` (iff the nearest enclosing
EXECUTABLE / STATIC_LIB / DYNAMIC_LIB kind along the root-to-node path,
node included and seeded with the root's own kind, is DYNAMIC_LIB),
followed by the ancestors' compile flags oldest-first, the node's local
compile flags, and `-MMD -c -o <target> <source>`. -/
theorem c2_compile_argv (fs : FS) (full : Bool) (u : Unit) (anc : List Unit)
    (w : Unit) (sw : Nat) (src t : String)
    (hmem : (anc, w, sw) ∈ Unit.subPaths u [] 0)
    (hs : w.source_path = Option.some src)
    (ht : w.target_path = Option.some t) :
    (Unit.compile fs full u).cmds[sw + w.numNodes - 1]? =
      Option.some ⟨w.compiler,
        (if nearestKind u.target_type (anc ++ [w]) = TargetType.DYNAMIC_LIB
         then ["-fPIC"] else []) ++
        (inheritedFlags anc ++ w.compile_flags) ++
        ["-MMD", "-c", "-o", t, src],
        Unit.rebuildSpec fs w || full, true⟩ := by
  have hE := compile_emit fs full u anc w sw hmem (by rw [ht]; rfl)
  rw [hE]
  simp [emittedCmd, hs, ht]

/-- C2 witness: the compile unit under the dynamic library `build/liby.so`
receives `-fPIC`, the root's `-Wall` before its local `-O2`. -/
theorem c2_compile_argv_witness :
    (Unit.compile fs0 false treeSo).cmds[0 + unitY.numNodes - 1]? =
      Option.some ⟨unitY.compiler,
        (if nearestKind treeSo.target_type ([treeSo] ++ [unitY]) =
            TargetType.DYNAMIC_LIB then ["-fPIC"] else []) ++
        (inheritedFlags [treeSo] ++ unitY.compile_flags) ++
        ["-MMD", "-c", "-o", "build/y.o", "src/y.cpp"],
        Unit.rebuildSpec fs0 unitY || false, true⟩ :=
  c2_compile_argv fs0 false treeSo [treeSo] unitY 0 "src/y.cpp" "build/y.o"
    (by decide) rfl rfl

/-- C3 counterexample: for the static library `build/libx.a` of `treeA`,
the emitted `ar` argv is `rcs -o build/libx.a build/x1.o build/x2.o` — the
planner pushes `-o` before the archive name — so the claimed argv
`["rcs", target, ...objects]` is wrong. -/
theorem c3_static_lib_counterexample :
    ((Unit.compile fs0 false treeA).cmds.getD 2 default).command = "ar" ∧
    ((Unit.compile fs0 false treeA).cmds.getD 2 default).args =
      ["rcs", "-o", "build/libx.a", "build/x1.o", "build/x2.o"] ∧
    ((Unit.compile fs0 false treeA).cmds.getD 2 default).args ≠
      ["rcs", "build/libx.a", "build/x1.o", "build/x2.o"] := by
  decide

/-- C3 (amended): for every STATIC_LIB link unit the emitted command is
`ar` with argv exactly `["rcs", "-o", target, ...dep_object_paths]` (the
children's targets in child order); the unit's link flags do not appear
(the argv is independent of them). -/
theorem c3_static_lib_argv (fs : FS) (full : Bool) (u : Unit) (anc : List Unit)
    (w : Unit) (sw : Nat) (t : String)
    (hmem : (anc, w, sw) ∈ Unit.subPaths u [] 0)
    (ht : w.target_path = Option.some t) (hs : w.source_path = Option.none)
    (hk : w.target_type = TargetType.STATIC_LIB) :
    (Unit.compile fs full u).cmds[sw + w.numNodes - 1]? =
      Option.some ⟨"ar", "rcs" :: "-o" :: t :: UnitList.depTargets w.deps,
        Unit.rebuildSpec fs w || full, false⟩ := by
  have hE := compile_emit fs full u anc w sw hmem (by rw [ht]; rfl)
  rw [hE]
  simp [emittedCmd, hs, ht, hk]

/-- C3 amended-claim witness: `treeA`'s own archive node. -/
theorem c3_static_lib_argv_witness :
    (Unit.compile fs0 false treeA).cmds[0 + treeA.numNodes - 1]? =
      Option.some ⟨"ar", "rcs" :: "-o" :: "build/libx.a" ::
        UnitList.depTargets treeA.deps,
        Unit.rebuildSpec fs0 treeA || false, false⟩ :=
  c3_static_lib_argv fs0 false treeA [] treeA 0 "build/libx.a" (by decide) rfl
    rfl (by decide)

/-- C4 counterexample: in `treeNest` (an executable whose only input is a
nested static-library link unit) the plan has the edge `(0, 1)` whose
source node 0 is the inner library's link command, not a compile node:
`is_compile` of node 0 is `false`. -/
theorem c4_edge_counterexample :
    (1 ∈ (Unit.compile fs0 false treeNest).outs.getD 0 []) ∧
    ((Unit.compile fs0 false treeNest).cmds.getD 0 default).compile = false := by
  decide

/-- C4 (amended): every edge `(a, b)` of a compiled plan ends in a
link/archive node (`is_compile` of `b` is `false`), and its source `a` is
exactly the node emitted for a direct child of `b`'s Unit — so `a` is a
compile node when that child is a compile unit, but is itself a
link/archive node when the child is a nested link/archive unit
(`EdgeProv` states that `b` is the node of a link/archive subunit `w` and
`a` the node of a direct child of `w`, i.e. it was emitted during the
recursion rooted at that child). -/
theorem c4_edge_soundness (fs : FS) (full : Bool) (u : Unit) (a b : Nat)
    (h : b ∈ (Unit.compile fs full u).outs.getD a []) :
    ((Unit.compile fs full u).cmds.getD b default).compile = false ∧
    EdgeProv u 0 a b := by
  have hP := compile_edges fs full u a b h
  refine ⟨?_, hP⟩
  obtain ⟨anc, w, sw, hmem, hts, hsrc, rfl, c, sc, hoff, hct, rfl⟩ := hP
  obtain ⟨t, ht⟩ := Option.isSome_iff_exists.mp hts
  have hE := compile_emit fs full u anc w sw hmem hts
  rw [List.getD_eq_getElem?_getD, hE]
  simp only [Option.getD_some]
  exact emittedCmd_not_compile fs full w _ _ t ht hsrc

/-- C4 amended-claim witness: the edge `(0, 2)` of `treeA`'s plan. -/
theorem c4_edge_soundness_witness :
    (((Unit.compile fs0 false treeA).cmds.getD 2 default).compile = false ∧
      EdgeProv treeA 0 0 2) :=
  c4_edge_soundness fs0 false treeA 0 2 (by decide)

/-- C8: post-order numbering — every edge of a compiled plan goes from a
smaller node id to a strictly larger one; since the edges are exactly the
(child node, consuming link/archive node) pairs, every node emitted for a
child of a link/archive unit has a strictly lower id than that unit's own
node. -/
theorem c8_postorder (fs : FS) (full : Bool) (u : Unit) (a b : Nat)
    (h : b ∈ (Unit.compile fs full u).outs.getD a []) : a < b := by
  have hP := compile_edges fs full u a b h
  obtain ⟨anc, w, sw, hmem, hts, hsrc, rfl, c, sc, hoff, hct, rfl⟩ := hP
  have hb1 := UnitList.offsets_bounds w.deps sw c sc hoff
  have hc1 := Unit.numNodes_pos c hct
  have hw := Unit.numNodes_eq w hts
  omega

/-- C8 witness: the edge `(0, 2)` of `treeA`'s plan. -/
theorem c8_postorder_witness :
    (2 ∈ (Unit.compile fs0 false treeA).outs.getD 0 []) ∧ 0 < 2 :=
  ⟨by decide, c8_postorder fs0 false treeA 0 2 (by decide)⟩

/-- Filesystem for the C5 scenario: only `build/x1.o` exists. -/
def fs5 : FS := ⟨fun s => s == "build/x1.o", fun _ => 0⟩

/-- C5 scenario tree: an executable built from a static library (whose only
object is up to date but whose archive is missing) plus one stale compile
unit at top level. -/
def tree5 : Unit :=
  .mk (.cons (.mk (.cons (.mk .nil (Option.some "src/x1.cpp")
                            (Option.some "build/x1.o") [] [] "c++") .nil)
                  Option.none (Option.some "build/libx.a") [] [] "c++")
       (.cons (.mk .nil (Option.some "src/main.cpp") (Option.some "build/main.o")
                  [] [] "c++") .nil))
    Option.none (Option.some "build/app") [] [] "c++"

/-- The plan of the C5 scenario: node 0 = compile x1 (disabled), node 1 =
archive libx.a (enabled), node 2 = compile main (enabled), node 3 = link
app (enabled), edges 0→1, 1→3, 2→3. -/
def plan5 : CompileCommands := Unit.compile fs5 false tree5

/-- The scheduler state the step chain of `c5_invariant_counterexample`
reaches: node 1 ran twice, and node 3 is on the ready queue while node 2
has not finished. -/
def sigma5 : SchedState := ⟨[0, 0, 0, 0], [2, 3], [], [1, 1]⟩

/-- C5 counterexample: the scheduler's seed loop pushes the enabled archive
node 1 twice (once when the disabled node 0 propagates at i = 0, once by
node 1's own indegree-zero check at i = 1), so `initState plan5` has ready
queue `[1, 1, 2]`; running node 1 twice decrements node 3's in-degree
twice, and node 3 is enqueued while its enabled predecessor node 2 has not
finished — the claimed scheduler invariant is violated on a reachable
state. -/
theorem c5_invariant_counterexample :
    Reach plan5 sigma5 ∧ 3 ∈ sigma5.ready ∧ 2 ∉ sigma5.finished ∧
    nodeEnabled plan5 2 = true ∧ 3 ∈ plan5.outs.getD 2 [] ∧
    initState plan5 = ⟨[0, 0, 0, 2], [1, 1, 2], [], []⟩ := by
  refine ⟨?_, by decide, by decide, by decide, by decide, by decide⟩
  have h0 : initState plan5 = ⟨[0, 0, 0, 2], [1, 1, 2], [], []⟩ := by decide
  have s1 : Step plan5 ⟨[0, 0, 0, 2], [1, 1, 2], [], []⟩
      ⟨[0, 0, 0, 2], [1, 2], [1], []⟩ :=
    Step.dispatch 1 [1, 2] [0, 0, 0, 2] [] []
  have s2 : Step plan5 ⟨[0, 0, 0, 2], [1, 2], [1], []⟩
      ⟨[0, 0, 0, 1], [1, 2], [], [1]⟩ :=
    Step.finish 1 [0, 0, 0, 2] [1, 2] [] [] []
  have s3 : Step plan5 ⟨[0, 0, 0, 1], [1, 2], [], [1]⟩
      ⟨[0, 0, 0, 1], [2], [1], [1]⟩ :=
    Step.dispatch 1 [2] [0, 0, 0, 1] [] [1]
  have s4 : Step plan5 ⟨[0, 0, 0, 1], [2], [1], [1]⟩ sigma5 :=
    Step.finish 1 [0, 0, 0, 1] [2] [] [] [1]
  rw [Reach, h0]
  exact Relation.ReflTransGen.tail (Relation.ReflTransGen.tail
    (Relation.ReflTransGen.tail (Relation.ReflTransGen.tail
      Relation.ReflTransGen.refl s1) s2) s3) s4

/-! ### Parse / self-rebuild / writer / clean lemmas -/

theorem parse_scan_go (args : List String) : ∀ (fl : List String) (m r : Bool),
    args.foldl (fun st a =>
      if a = "nob_rebuild" then (st.1, true, st.2.2)
      else if a = "rebuild" then (st.1 ++ [a], st.2.1, true)
      else (st.1 ++ [a], st.2.1, st.2.2)) (fl, m, r) =
    (fl ++ args.filter (fun a => a != "nob_rebuild"),
      m || args.contains "nob_rebuild", r || args.contains "rebuild") := by
  induction args with
  | nil => intro fl m r; simp
  | cons a rest ih =>
    intro fl m r
    rw [List.foldl_cons]
    by_cases h1 : a = "nob_rebuild"
    · subst h1
      rw [if_pos rfl, ih]
      simp [List.filter_cons, List.contains_cons]
    · by_cases h2 : a = "rebuild"
      · subst h2
        rw [if_neg h1, if_pos rfl, ih]
        simp [List.filter_cons, List.contains_cons, h1, Ne.symm h1,
          List.append_assoc]
      · rw [if_neg h1, if_neg h2, ih]
        simp [List.filter_cons, List.contains_cons, h1, h2, Ne.symm h1,
          Ne.symm h2, List.append_assoc]

theorem filter_contains_rebuild (args : List String) :
    (args.filter (fun a => a != "nob_rebuild")).contains "rebuild" =
      args.contains "rebuild" := by
  induction args with
  | nil => rfl
  | cons a rest ih =>
    by_cases h : a = "nob_rebuild"
    · subst h
      simp [List.filter_cons, List.contains_cons, ih]
    · simp [List.filter_cons, List.contains_cons, h, Ne.symm h, ih]

/-- C6: when the self-rebuild bootstrap decides to recompile it re-executes
the (re)built binary with argv `[original program name, "nob_rebuild",
original args 1..argc-1]` (and execs nothing otherwise); and `Unit::parse`
removes every `nob_rebuild` token from the command list and prepends
`rebuild` exactly when the marker was present and `rebuild` was not among
the remaining tokens. -/
theorem c6_marker (fs : FS) (src bin prog : String) (args deps : List String) :
    (rebuild_self_needs fs src bin deps = true →
      rebuild_self_exec fs src bin prog args deps =
        Option.some (bin, prog :: "nob_rebuild" :: args)) ∧
    (rebuild_self_needs fs src bin deps = false →
      rebuild_self_exec fs src bin prog args deps = Option.none) ∧
    parse_cmd_flags args =
      (if args.contains "nob_rebuild" &&
          !((args.filter (fun a => a != "nob_rebuild")).contains "rebuild")
       then "rebuild" :: args.filter (fun a => a != "nob_rebuild")
       else args.filter (fun a => a != "nob_rebuild")) := by
  refine ⟨?_, ?_, ?_⟩
  · intro h
    simp [rebuild_self_exec, h]
  · intro h
    simp [rebuild_self_exec, h]
  · unfold parse_cmd_flags parse_scan
    rw [parse_scan_go args [] false false, filter_contains_rebuild args]
    cases hM : args.contains "nob_rebuild" <;>
      cases hR : args.contains "rebuild" <;> simp [hM, hR]

/-- C6 witness: a stale binary execs with the marker inserted after the
program name, and the new image turns `[nob_rebuild, clean]` into
`[rebuild, clean]`. -/
theorem c6_marker_witness :
    (rebuild_self_exec fs0 "nob.cpp" "./nob" "./nob" ["clean"] [] =
      Option.some ("./nob", "./nob" :: "nob_rebuild" :: ["clean"])) ∧
    parse_cmd_flags ["nob_rebuild", "clean"] = ["rebuild", "clean"] :=
  ⟨(c6_marker fs0 "nob.cpp" "./nob" "./nob" ["clean"] []).1 (by decide),
   ((c6_marker fs0 "nob.cpp" "./nob" "./nob" ["nob_rebuild", "clean"] []).2.2).trans
     (by decide)⟩

/-- Space-separated suffix used to relate the printing loop to
`String.intercalate`. -/
def spacePrefix : List String → String
  | [] => ""
  | a :: rest => " " ++ a ++ spacePrefix rest

theorem intercalate_go_eq : ∀ (l : List String) (acc : String),
    String.intercalate.go acc " " l = acc ++ spacePrefix l := by
  intro l
  induction l with
  | nil =>
    intro acc
    apply String.ext
    simp [String.intercalate.go, spacePrefix]
  | cons a rest ih =>
    intro acc
    rw [String.intercalate.go, ih]
    apply String.ext
    simp [spacePrefix]

theorem sepConcat_spacePrefix : ∀ (rest : List String) (a : String),
    sepConcat (a :: rest) = a ++ spacePrefix rest
  | [], a => by
    apply String.ext
    simp [sepConcat, spacePrefix]
  | b :: bs, a => by
    rw [sepConcat, sepConcat_spacePrefix bs b]
    apply String.ext
    simp [spacePrefix]

theorem sepConcat_eq_intercalate : ∀ l : List String,
    sepConcat l = String.intercalate " " l
  | [] => rfl
  | a :: rest => by
    rw [String.intercalate, intercalate_go_eq, sepConcat_spacePrefix]

/-- C7: the compilation-database writer emits exactly one entry per
compile-kind plan node, in node order, with `directory = "."`, `command`
equal to the node's command followed by a space and its args joined with
single spaces, and `file` the absolute path of the node's last argument
(the source). -/
theorem c7_compile_db (cwd : String) (cc : CompileCommands) :
    CompileCommands.write cwd cc =
      (cc.cmds.filter (fun c => c.compile)).map
        (fun c => ⟨".", c.command ++ " " ++ String.intercalate " " c.args,
                   absolutePath cwd (c.args.getLastD "")⟩) := by
  unfold CompileCommands.write
  apply List.map_congr_left
  intro c _
  simp [CompileCommand.print_str, CompileCommand.get_abs_file,
    sepConcat_eq_intercalate]

/-- Unit with only a target, for the `run` sub-command. -/
def unitRun : Unit := .mk .nil Option.none (Option.some "build/out") [] [] "c++"

/-- C9: the `run` sub-command's action evaluated at a unit whose target is
`build/out`: the code launches two child processes — one via the process
runner with the target and empty argv, and one more via `std::system` on
the same string — not exactly one. -/
theorem c9_run_launches :
    run_action unitRun =
      [Launch.proc (Unit.get_target unitRun) [],
       Launch.shell (Unit.get_target unitRun)] ∧
    Unit.get_target unitRun = "build/out" ∧
    (run_action unitRun).length = 2 := by decide

mutual
theorem Unit.clean_impl_cmds : ∀ (u : Unit) (fs : FS) (cc : CompileCommands)
    (c : CompileCommand), c ∈ (Unit.clean_impl fs u cc).cmds →
    c ∈ cc.cmds ∨ (c.command = "rm" ∧ c.args.length = 1 ∧
      c.enabled = fs.fexists (c.args.getLastD "") ∧ c.compile = false)
  | .mk deps sp tp cf lf comp, fs, cc, c => by
    intro h
    cases tp with
    | none =>
      simp only [Unit.clean_impl] at h
      exact UnitList.clean_list_cmds deps fs cc c h
    | some target =>
      simp only [Unit.clean_impl] at h
      by_cases hk : targetTypeOfPath (Option.some target) = TargetType.OBJECT
      · rw [if_pos hk] at h
        simp only [CompileCommands.add_cmd, List.mem_append,
          List.mem_singleton] at h
        rcases h with (h | rfl) | rfl
        · exact UnitList.clean_list_cmds deps fs cc c h
        · exact Or.inr ⟨rfl, rfl, rfl, rfl⟩
        · exact Or.inr ⟨rfl, rfl, rfl, rfl⟩
      · rw [if_neg hk] at h
        simp only [CompileCommands.add_cmd, List.mem_append,
          List.mem_singleton] at h
        rcases h with h | rfl
        · exact UnitList.clean_list_cmds deps fs cc c h
        · exact Or.inr ⟨rfl, rfl, rfl, rfl⟩

theorem UnitList.clean_list_cmds : ∀ (us : UnitList) (fs : FS)
    (cc : CompileCommands) (c : CompileCommand),
    c ∈ (UnitList.clean_list fs us cc).cmds →
    c ∈ cc.cmds ∨ (c.command = "rm" ∧ c.args.length = 1 ∧
      c.enabled = fs.fexists (c.args.getLastD "") ∧ c.compile = false)
  | .nil, fs, cc, c => fun h => Or.inl h
  | .cons c0 rest, fs, cc, c => by
    intro h
    simp only [UnitList.clean_list] at h
    rcases UnitList.clean_list_cmds rest fs (Unit.clean_impl fs c0 cc) c h with
      h2 | h2
    · exact Unit.clean_impl_cmds c0 fs cc c h2
    · exact Or.inr h2
end

/-- C10: every command planned by `clean(false)` is an `rm` of a single
path (the target, or the sibling `.d` file for OBJECT targets) whose
`enabled` flag equals the existence of that path at planning time — and a
disabled command launches nothing, so `rm` is never invoked on a missing
path; `clean(true)` is the single `rm -r build` command enabled iff the
`build` directory exists. -/
theorem c10_clean_rm (fs : FS) (u : Unit) :
    (∀ c ∈ (Unit.clean fs u false).cmds, c.command = "rm" ∧ c.args.length = 1 ∧
      c.enabled = fs.fexists (c.args.getLastD "") ∧ c.compile = false ∧
      (c.enabled = false → CompileCommand.launches c = [])) ∧
    (Unit.clean fs u true).cmds =
      [⟨"rm", ["-r", "build"], fs.fexists "build", false⟩] := by
  constructor
  · intro c hc
    have h := Unit.clean_impl_cmds u fs emptyPlan c (by simpa [Unit.clean] using hc)
    rcases h with h | ⟨h1, h2, h3, h4⟩
    · simp [emptyPlan] at h
    · refine ⟨h1, h2, h3, h4, ?_⟩
      intro he
      simp [CompileCommand.launches, he]
  · simp [Unit.clean, CompileCommands.add_cmd, emptyPlan]

/-- C10 witness: the `rm build/x1.o` command of `treeA`'s clean plan on the
empty filesystem is disabled and launches nothing. -/
theorem c10_clean_rm_witness :
    ((⟨"rm", ["build/x1.o"], false, false⟩ : CompileCommand) ∈
      (Unit.clean fs0 treeA false).cmds) ∧
    ((⟨"rm", ["build/x1.o"], false, false⟩ : CompileCommand).command = "rm" ∧
     (⟨"rm", ["build/x1.o"], false, false⟩ : CompileCommand).args.length = 1 ∧
     (⟨"rm", ["build/x1.o"], false, false⟩ : CompileCommand).enabled =
       fs0.fexists ((⟨"rm", ["build/x1.o"], false, false⟩ :
         CompileCommand).args.getLastD "") ∧
     (⟨"rm", ["build/x1.o"], false, false⟩ : CompileCommand).compile = false ∧
     ((⟨"rm", ["build/x1.o"], false, false⟩ : CompileCommand).enabled = false →
       CompileCommand.launches ⟨"rm", ["build/x1.o"], false, false⟩ = [])) :=
  ⟨by decide, (c10_clean_rm fs0 treeA).1 _ (by decide)⟩

end Nobcpp
